import Mathlib

/-!
Shallow embedding of `index_documents.py` (class `DocumentVectorizer`).

Python strings are modelled as `List Char`.  The pieces embedded here:

* `pyStrip` — Python `str.strip()` (ASCII whitespace).
* `splitSep` / `chunkTextL` — `DocumentVectorizer.chunk_text`:
  `[c.strip() for c in text.split("\n\n") if c.strip()]`.
* `getEmbedding` — `DocumentVectorizer.get_embedding`, with the remote
  Gemini call abstracted to an attempt-indexed oracle and the side
  effects (remote calls, `time.sleep` delays) recorded in a trace.
* `processFile` — `DocumentVectorizer.process_file`, with the database
  modelled as a list of committed rows and the per-chunk embed/insert
  outcomes abstracted to oracles; transaction boundaries (`with
  self.conn`), inserts and warnings are recorded as events.
* `extractDispatch` — the extension dispatch of
  `DocumentVectorizer.extract_text`.
-/

namespace IndexDocs

/-- Python `str.isspace` for the ASCII whitespace characters relevant to
`str.strip()`: space, tab, newline, carriage return, vertical tab, form
feed.  (CPython also strips further Unicode whitespace; every string in
this development is ASCII, so the ASCII set is faithful here.) -/
def pyIsSpace (c : Char) : Bool :=
  c == ' ' || c == '\t' || c == '\n' || c == '\x0d' || c == Char.ofNat 11 || c == Char.ofNat 12

/-- Python `str.lstrip()`. -/
def lstrip (l : List Char) : List Char := l.dropWhile pyIsSpace

/-- Python `str.rstrip()`. -/
def rstrip (l : List Char) : List Char := l.rdropWhile pyIsSpace

/-- Python `str.strip()`. -/
def pyStrip (l : List Char) : List Char := rstrip (lstrip l)

/-- Python `text.split("\n\n")`, as (first segment, remaining segments).
The scanner consumes the two-newline separator exactly where CPython's
`str.split` finds its next non-overlapping occurrence, left to right. -/
def splitSepAux : List Char → List Char × List (List Char)
  | [] => ([], [])
  | [c] => ([c], [])
  | c :: d :: rest =>
    if c = '\n' ∧ d = '\n' then
      let r := splitSepAux rest
      ([], r.1 :: r.2)
    else
      let r := splitSepAux (d :: rest)
      (c :: r.1, r.2)

/-- Python `text.split("\n\n")`. -/
def splitSep (l : List Char) : List (List Char) :=
  ((splitSepAux l).1) :: (splitSepAux l).2

/-- `DocumentVectorizer.chunk_text`:
`[c.strip() for c in text.split("\n\n") if c.strip()]`. -/
def chunkTextL (text : List Char) : List (List Char) :=
  ((splitSep text).map pyStrip).filter (fun c => c ≠ [])

/-- `chunk_text` on Lean `String`s, for concrete scenarios. -/
def chunk_text (s : String) : List String :=
  (chunkTextL s.toList).map fun l => String.mk l

/-- Rejoin chunks with the blank-line separator `"\n\n"`
(Python `"\n\n".join(chunks)`). -/
def joinSep : List (List Char) → List Char
  | [] => []
  | [p] => p
  | p :: ps => p ++ '\n' :: '\n' :: joinSep ps

/-- Modelled from the spec: split on blank-line boundaries where a run of
two or more consecutive newline characters acts as ONE paragraph
separator (maximal-run splitting), as (first segment, remaining
segments).  This is the spec-side reference splitter, to be compared
with `splitSepAux`, which is the code's `split("\n\n")`. -/
def splitRunsAux : List Char → List Char × List (List Char)
  | [] => ([], [])
  | [c] => ([c], [])
  | c :: d :: rest =>
    if c = '\n' ∧ d = '\n' then
      let r := splitRunsAux (rest.dropWhile (fun x => x = '\n'))
      ([], r.1 :: r.2)
    else
      let r := splitRunsAux (d :: rest)
      (c :: r.1, r.2)
termination_by l => l.length
decreasing_by
  · have := (List.dropWhile_suffix (l := rest) (fun x => x = '\n')).length_le
    simp only [List.length_cons]
    omega
  · simp only [List.length_cons]
    omega

/-- Modelled from the spec: the splitter on maximal newline runs. -/
def splitRuns (l : List Char) : List (List Char) :=
  ((splitRunsAux l).1) :: (splitRunsAux l).2

/-- Modelled from the spec: the spec's chunker — split on runs of two or
more newlines, trim each segment, drop the segments that become empty. -/
def specChunkL (text : List Char) : List (List Char) :=
  ((splitRuns text).map pyStrip).filter (fun c => c ≠ [])

/-- Outcome of one `get_embedding` call: a returned vector, the terminal
`RuntimeError` (the spec's `EmbeddingFailure`) carrying the attempt
count named in its message and the chained last underlying error
(`raise ... from last_err`), or the implicit `None` return when the
`for` loop body never runs. -/
inductive EmbedOutcome (ε α : Type) where
  | vec (v : List α)
  | failure (attempts : Nat) (cause : ε)
  | retNone
deriving DecidableEq, Repr

/-- Observable side effects of one `get_embedding` call: how many times
the remote `embed_content` call was made, and the `time.sleep` delays in
order. -/
structure EmbedTrace where
  calls : Nat
  sleeps : List ℚ
deriving DecidableEq, Repr

/-- The retry loop of `get_embedding`
(`for attempt in range(1, max_retries + 1)`): `n` attempts remain and
the current attempt is numbered `i`; `maxRetries` is the configured
total, named in the terminal failure; `remote i` is the outcome of the
`i`-th remote call.  After a failed attempt with `attempt < max_retries`
the code sleeps `base_delay_s * 2 ** (attempt - 1)`; on the last attempt
it raises instead. -/
def embedLoop (remote : Nat → Except ε (List α)) (baseDelay : ℚ) (maxRetries : Nat) :
    Nat → Nat → EmbedOutcome ε α × EmbedTrace
  | 0, _ => (.retNone, ⟨0, []⟩)
  | n + 1, i =>
    match remote i with
    | .ok v => (.vec v, ⟨1, []⟩)
    | .error e =>
      if n = 0 then
        (.failure maxRetries e, ⟨1, []⟩)
      else
        let r := embedLoop remote baseDelay maxRetries n (i + 1)
        (r.1, ⟨r.2.calls + 1, baseDelay * 2 ^ (i - 1) :: r.2.sleeps⟩)

/-- `DocumentVectorizer.get_embedding(text, *, max_retries, base_delay_s)`:
blank text short-circuits to the empty vector before any remote call
(`if not text or not text.strip(): return []`); otherwise the retry loop
runs.  The remote `self.client.models.embed_content` call is abstracted
to the attempt-indexed oracle `remote`. -/
def getEmbedding (text : List Char) (maxRetries : Nat) (baseDelay : ℚ)
    (remote : Nat → Except ε (List α)) : EmbedOutcome ε α × EmbedTrace :=
  if text = [] ∨ pyStrip text = [] then (.vec [], ⟨0, []⟩)
  else embedLoop remote baseDelay maxRetries maxRetries 1

/-- A row of `document_embeddings` as written by `process_file` (`id`
and `created_at` are assigned by the store and not modelled). -/
structure Row where
  chunk_text : List Char
  embedding : List ℚ
  file_name : List Char
  split_strategy : String
deriving DecidableEq, Repr

/-- Observable events of one `process_file` call: transaction scope
entry and exit from `with self.conn` (psycopg2 commits when the block
exits normally and rolls back when an exception escapes it), embedding
calls, row inserts, per-chunk warnings, and the final summary print. -/
inductive Ev where
  | txBegin
  | txCommit
  | txRollback
  | embedCall (idx : Nat)
  | insertRow (r : Row)
  | warn (idx : Nat) (file : List Char)
  | summary (inserted total : Nat)
deriving DecidableEq, Repr

/-- Result of the per-chunk loop: rows inserted (in order), events, and
the `inserted` counter. -/
structure LoopOut where
  rows : List Row
  evs : List Ev
  inserted : Nat
deriving DecidableEq, Repr

/-- The per-chunk loop of `process_file`
(`for idx, chunk in enumerate(chunks)`): for each chunk, call
`self.get_embedding(chunk)` — abstracted by `embedO idx`, which is
either the returned vector or the raised exception — then
`cur.execute(insert_query, ...)` — `insertO idx = true` models the
insert raising.  Either failure is caught by the `try/except` and logged
as a warning naming the chunk index and the file. -/
def chunkLoop (file : List Char) (embedO : Nat → Except ε (List ℚ))
    (insertO : Nat → Bool) : List (List Char) → Nat → LoopOut
  | [], _ => ⟨[], [], 0⟩
  | c :: cs, idx =>
    let rest := chunkLoop file embedO insertO cs (idx + 1)
    match embedO idx with
    | .error _ => ⟨rest.rows, .embedCall idx :: .warn idx file :: rest.evs, rest.inserted⟩
    | .ok v =>
      if insertO idx then
        ⟨rest.rows, .embedCall idx :: .warn idx file :: rest.evs, rest.inserted⟩
      else
        let r : Row := ⟨c, v, file, "paragraph_split_newline"⟩
        ⟨r :: rest.rows, .embedCall idx :: .insertRow r :: rest.evs, rest.inserted + 1⟩

/-- The observable result of `process_file`: the table's committed rows
afterwards, the event trace, and whether an exception escaped the call
(in this code only the sentinel insert can raise; the per-chunk loop
catches every chunk failure). -/
structure PFResult where
  db : List Row
  evs : List Ev
  raised : Bool
deriving DecidableEq, Repr

/-- `DocumentVectorizer.process_file` from extraction onward: `rawText`
is the value `extract_text` returned, `db0` the table's prior rows.  The
blank check inserts the one sentinel row inside its own `with self.conn`
block (`sentinelFail = true` models that insert raising: the block rolls
back and the exception propagates).  Otherwise the whole per-chunk loop
runs inside a single `with self.conn` block, which commits once when the
loop finishes, and the summary is printed after the block. -/
def processFile (db0 : List Row) (file rawText : List Char)
    (embedO : Nat → Except ε (List ℚ)) (insertO : Nat → Bool)
    (sentinelFail : Bool) : PFResult :=
  if rawText = [] ∨ pyStrip rawText = [] then
    if sentinelFail then ⟨db0, [.txBegin, .txRollback], true⟩
    else
      let r : Row := ⟨[], [], file, "empty_file"⟩
      ⟨db0 ++ [r], [.txBegin, .insertRow r, .txCommit], false⟩
  else
    let chunks := chunkTextL rawText
    let out := chunkLoop file embedO insertO chunks 0
    ⟨db0 ++ out.rows,
     .txBegin :: out.evs ++ [.txCommit, .summary out.inserted chunks.length], false⟩

/-- `os.path.basename`: everything after the last `/`. -/
def baseName (path : List Char) : List Char :=
  (path.reverse.takeWhile (fun c => c ≠ '/')).reverse

/-- The extension as computed by `os.path.splitext(file_path)[1]`: the
basename's suffix from its last dot, except that the basename's leading
dots never begin an extension (CPython's `filenameIndex` scan). -/
def extOf (path : List Char) : List Char :=
  let b := baseName path
  if (b.dropWhile (fun c => c = '.')).any (fun c => c = '.') then
    '.' :: (b.reverse.takeWhile (fun c => c ≠ '.')).reverse
  else []

/-- `os.path.splitext(file_path)[1].lower()` as in `extract_text`. -/
def extLower (path : List Char) : List Char := (extOf path).map Char.toLower

/-- Which branch of `extract_text` runs.  The `.pdf` and `.docx` bodies
call the external parsing libraries and are not modelled beyond which
branch is taken; `unsupported ext` is the
`ValueError(f"Unsupported file format: {ext}")` raise, carrying the
(lowercased) extension named in its message. -/
inductive ExtractStep where
  | fileNotFound
  | pdfBranch
  | docxBranch
  | unsupported (ext : List Char)
deriving DecidableEq, Repr

/-- The dispatch skeleton of `extract_text`: the `os.path.exists` check,
then strict dispatch on the lowercased extension. -/
def extractDispatch (path : List Char) (existsOnDisk : Bool) : ExtractStep :=
  if !existsOnDisk then .fileNotFound
  else if extLower path = ".pdf".toList then .pdfBranch
  else if extLower path = ".docx".toList then .docxBranch
  else .unsupported (extLower path)

/-- A segment free of the `"\n\n"` separator. -/
def NoSep (l : List Char) : Prop := ¬ ['\n', '\n'] <:+: l

/-- Whether chunk number `k` fully succeeds in the per-chunk loop: the
embedding call returns and the insert does not raise. -/
def chunkOk (embedO : Nat → Except ε (List ℚ)) (insertO : Nat → Bool) (k : Nat) : Bool :=
  (match embedO k with | .ok _ => true | .error _ => false) && !(insertO k)

/-- The row chunk number `k` with text `c` contributes, if any. -/
def rowAt (file : List Char) (embedO : Nat → Except ε (List ℚ)) (insertO : Nat → Bool)
    (k : Nat) (c : List Char) : Option Row :=
  match embedO k with
  | .error _ => none
  | .ok v => if insertO k then none else some ⟨c, v, file, "paragraph_split_newline"⟩

/-! ## Theorems -/

theorem pyStrip_nil : pyStrip [] = [] := rfl

theorem pyStrip_cons_space {a : Char} (l : List Char) (h : pyIsSpace a = true) :
    pyStrip (a :: l) = pyStrip l := by
  simp [pyStrip, lstrip, List.dropWhile_cons, h]

theorem pyStrip_eq_self {l : List Char}
    (hh : ∀ a, l.head? = some a → pyIsSpace a = false)
    (hl : ∀ a, l.getLast? = some a → pyIsSpace a = false) : pyStrip l = l := by
  cases l with
  | nil => rfl
  | cons a t =>
    have ha : pyIsSpace a = false := hh a rfl
    have h1 : lstrip (a :: t) = a :: t := by simp [lstrip, List.dropWhile_cons, ha]
    rw [pyStrip, h1, rstrip, List.rdropWhile_eq_self_iff]
    intro hne
    rw [hl ((a :: t).getLast hne) (List.getLast?_eq_getLast _ hne)]
    simp

theorem pyStrip_head_not {l : List Char} (h : pyStrip l ≠ []) :
    ∀ a, (pyStrip l).head? = some a → pyIsSpace a = false := by
  intro a ha
  have hls : lstrip l ≠ [] := by
    intro he
    apply h
    rw [pyStrip, he]
    rfl
  have hpre : pyStrip l <+: lstrip l := List.rdropWhile_prefix _ _
  obtain ⟨t, ht⟩ := hpre
  have hhead : (lstrip l).head? = some a := by
    rw [← ht, List.head?_append, ha]
    rfl
  have hheadl : (lstrip l).head hls = a := by
    have := List.head?_eq_head hls
    rw [hhead] at this
    exact (Option.some_injective _ this.symm)
  have hns := List.head_dropWhile_not pyIsSpace l hls
  simp only [lstrip] at hheadl
  rwa [hheadl] at hns

theorem pyStrip_getLast_not {l : List Char} (h : pyStrip l ≠ []) :
    ∀ a, (pyStrip l).getLast? = some a → pyIsSpace a = false := by
  intro a ha
  have hlast := List.rdropWhile_last_not pyIsSpace (lstrip l) h
  have := List.getLast?_eq_getLast (pyStrip l) h
  rw [ha] at this
  have heq : (pyStrip l).getLast h = a := Option.some_injective _ this.symm
  simp only [pyStrip, rstrip] at heq
  rw [heq] at hlast
  simpa using hlast

theorem pyStrip_idem (l : List Char) : pyStrip (pyStrip l) = pyStrip l := by
  by_cases h : pyStrip l = []
  · rw [h]; rfl
  · exact pyStrip_eq_self (pyStrip_head_not h) (pyStrip_getLast_not h)

theorem pyStrip_infixOf (l : List Char) : pyStrip l <:+: l :=
  ((List.rdropWhile_prefix pyIsSpace (lstrip l)).isInfix).trans
    ((List.dropWhile_suffix pyIsSpace).isInfix)

theorem noSep_nil : NoSep [] := by
  intro h
  have := h.length_le
  simp at this

theorem noSep_singleton (c : Char) : NoSep [c] := by
  intro h
  have := h.length_le
  simp at this

theorem noSep_of_cons {a : Char} {l : List Char} (h : NoSep (a :: l)) : NoSep l :=
  fun hinf => h (List.infix_cons_iff.mpr (Or.inr hinf))

theorem noSep_mono {c d : List Char} (hinf : d <:+: c) (h : NoSep c) : NoSep d :=
  fun hd => h (hd.trans hinf)

theorem sep_infix_cons_cons (rest : List Char) : ['\n', '\n'] <:+: '\n' :: '\n' :: rest :=
  ⟨[], rest, rfl⟩

theorem splitSepAux_fst_head (l : List Char) :
    (splitSepAux l).1 = [] ∨ (splitSepAux l).1.head? = l.head? := by
  induction l using splitSepAux.induct with
  | case1 => left; rfl
  | case2 c => right; rfl
  | case3 c d rest hcd ih =>
    obtain ⟨rfl, rfl⟩ := hcd
    left
    simp [splitSepAux]
  | case4 c d rest hcd ih =>
    right
    simp [splitSepAux, hcd]

theorem noSep_splitSepAux (l : List Char) :
    NoSep (splitSepAux l).1 ∧ ∀ c ∈ (splitSepAux l).2, NoSep c := by
  induction l using splitSepAux.induct with
  | case1 => exact ⟨noSep_nil, by simp [splitSepAux]⟩
  | case2 c => exact ⟨noSep_singleton c, by simp [splitSepAux]⟩
  | case3 c d rest hcd ih =>
    obtain ⟨rfl, rfl⟩ := hcd
    refine ⟨by simp [splitSepAux]; exact noSep_nil, ?_⟩
    intro x hx
    have hx2 : x = (splitSepAux rest).1 ∨ x ∈ (splitSepAux rest).2 := by
      simpa [splitSepAux] using hx
    rcases hx2 with heq | hx2
    · subst heq; exact ih.1
    · exact ih.2 x hx2
  | case4 c d rest hcd ih =>
    constructor
    · simp only [splitSepAux, if_neg hcd]
      intro hinf
      rcases List.infix_cons_iff.mp hinf with hpre | hinf2
      · obtain ⟨u, hu⟩ := hpre
        simp only [List.cons_append] at hu
        have hc : c = '\n' := (List.cons.injEq _ _ _ _ ▸ hu).1.symm
        have hr1 : (splitSepAux (d :: rest)).1 = '\n' :: u := by
          have := (List.cons.injEq _ _ _ _ ▸ hu).2
          simpa using this.symm
        rcases splitSepAux_fst_head (d :: rest) with hnil | hhead
        · rw [hnil] at hr1; cases hr1
        · rw [hr1] at hhead
          simp only [List.head?_cons, Option.some.injEq] at hhead
          exact hcd ⟨hc, hhead.symm⟩
      · exact ih.1 hinf2
    · intro x hx
      simp only [splitSepAux, if_neg hcd] at hx
      exact ih.2 x hx

theorem splitSepAux_noSep {l : List Char} (h : NoSep l) : splitSepAux l = (l, []) := by
  induction l using splitSepAux.induct with
  | case1 => rfl
  | case2 c => rfl
  | case3 c d rest hcd ih =>
    obtain ⟨rfl, rfl⟩ := hcd
    exact absurd (sep_infix_cons_cons rest) h
  | case4 c d rest hcd ih =>
    have := ih (noSep_of_cons h)
    simp [splitSepAux, hcd, this]

theorem splitSepAux_append_sep (p t : List Char) (hns : NoSep p)
    (hlast : p.getLast? ≠ some '\n') :
    splitSepAux (p ++ '\n' :: '\n' :: t) =
      (p, (splitSepAux t).1 :: (splitSepAux t).2) := by
  induction p using splitSepAux.induct with
  | case1 => simp [splitSepAux]
  | case2 c =>
    have hc : c ≠ '\n' := by
      rintro rfl
      exact hlast (by simp)
    simp [splitSepAux, hc]
  | case3 c d rest hcd ih =>
    obtain ⟨rfl, rfl⟩ := hcd
    exact absurd (sep_infix_cons_cons rest) hns
  | case4 c d rest hcd ih =>
    have hlast2 : (d :: rest).getLast? ≠ some '\n' := by
      rwa [List.getLast?_cons_cons] at hlast
    have := ih (noSep_of_cons hns) hlast2
    simp only [List.cons_append] at this ⊢
    simp [splitSepAux, hcd, this]

theorem splitSep_joinSep (ps : List (List Char)) (hne : ps ≠ [])
    (h : ∀ p ∈ ps, NoSep p ∧ p.getLast? ≠ some '\n') :
    splitSep (joinSep ps) = ps := by
  induction ps with
  | nil => exact absurd rfl hne
  | cons p ps ih =>
    cases ps with
    | nil =>
      have hp := (h p (List.mem_cons_self p _)).1
      simp [joinSep, splitSep, splitSepAux_noSep hp]
    | cons q ps' =>
      have hstep : joinSep (p :: q :: ps') = p ++ '\n' :: '\n' :: joinSep (q :: ps') := rfl
      have hrec := ih (List.cons_ne_nil q ps')
        (fun x hx => h x (List.mem_cons_of_mem p hx))
      rw [hstep, splitSep,
        splitSepAux_append_sep p (joinSep (q :: ps'))
          (h p (List.mem_cons_self p _)).1 (h p (List.mem_cons_self p _)).2]
      simp only [List.cons.injEq, true_and]
      simpa [splitSep] using hrec

theorem chunkTextL_elem_props {t c : List Char} (hc : c ∈ chunkTextL t) :
    c ≠ [] ∧ pyStrip c = c ∧ NoSep c ∧ c.getLast? ≠ some '\n' := by
  unfold chunkTextL at hc
  rw [List.mem_filter] at hc
  obtain ⟨hmem, hnonempty⟩ := hc
  rw [List.mem_map] at hmem
  obtain ⟨seg, hseg, rfl⟩ := hmem
  have hne : pyStrip seg ≠ [] := by simpa using hnonempty
  have hsegNoSep : NoSep seg := by
    simp only [splitSep, List.mem_cons] at hseg
    rcases hseg with rfl | h2
    · exact (noSep_splitSepAux t).1
    · exact (noSep_splitSepAux t).2 _ h2
  refine ⟨hne, pyStrip_idem seg, noSep_mono (pyStrip_infixOf seg) hsegNoSep, ?_⟩
  intro hlast
  have := pyStrip_getLast_not hne '\n' hlast
  simp [pyIsSpace] at this

/-- C5: chunking is idempotent — re-chunking the returned chunks
rejoined with a blank-line separator yields the same chunk sequence, for
every input text. -/
theorem chunking_idempotent (t : List Char) :
    chunkTextL (joinSep (chunkTextL t)) = chunkTextL t := by
  rcases heq : chunkTextL t with _ | ⟨p, ps⟩
  · rfl
  · have hprops : ∀ c ∈ chunkTextL t, c ≠ [] ∧ pyStrip c = c ∧ NoSep c ∧
        c.getLast? ≠ some '\n' := fun c hc => chunkTextL_elem_props hc
    rw [heq] at hprops
    have hsplit : splitSep (joinSep (p :: ps)) = p :: ps :=
      splitSep_joinSep (p :: ps) (List.cons_ne_nil p ps)
        (fun x hx => ⟨(hprops x hx).2.2.1, (hprops x hx).2.2.2⟩)
    unfold chunkTextL
    rw [hsplit]
    have hmap : (p :: ps).map pyStrip = p :: ps := by
      rw [List.map_congr_left (fun x hx => (hprops x hx).2.1)]
      exact List.map_id _
    rw [hmap]
    exact List.filter_eq_self.mpr (fun x hx => by simpa using (hprops x hx).1)

/-- C7: every chunk the chunker returns is non-empty and not
whitespace-only (each candidate segment is trimmed, and segments that
trim to empty are dropped), and the surviving chunks keep their
original order — the output is a sublist of the trimmed segments of the
blank-line split. -/
theorem chunks_nonblank_ordered (t : List Char) :
    (∀ c ∈ chunkTextL t, c ≠ [] ∧ pyStrip c = c ∧ ∃ x ∈ c, pyIsSpace x = false) ∧
    (chunkTextL t).Sublist ((splitSep t).map pyStrip) := by
  constructor
  · intro c hc
    obtain ⟨hne, hstrip, _, _⟩ := chunkTextL_elem_props hc
    refine ⟨hne, hstrip, c.head hne, List.head_mem hne, ?_⟩
    have := pyStrip_head_not (by rwa [hstrip]) (c.head hne)
    rw [hstrip] at this
    exact this (List.head?_eq_head hne)
  · unfold chunkTextL
    exact List.filter_sublist _

theorem splitSepAux_cons_cons_neg {c d : Char} (rest : List Char)
    (h : ¬(c = '\n' ∧ d = '\n')) :
    splitSepAux (c :: d :: rest) =
      (c :: (splitSepAux (d :: rest)).1, (splitSepAux (d :: rest)).2) := by
  simp [splitSepAux, h]

theorem splitRunsAux_cons_cons_neg {c d : Char} (rest : List Char)
    (h : ¬(c = '\n' ∧ d = '\n')) :
    splitRunsAux (c :: d :: rest) =
      (c :: (splitRunsAux (d :: rest)).1, (splitRunsAux (d :: rest)).2) := by
  rw [splitRunsAux]
  simp [h]

theorem chunkTextL_cons_nl : ∀ u : List Char, chunkTextL ('\n' :: u) = chunkTextL u := by
  intro u
  induction u with
  | nil => rfl
  | cons a v ih =>
    by_cases ha : a = '\n'
    · subst ha
      have hL : chunkTextL ('\n' :: '\n' :: v) = chunkTextL v := by
        simp [chunkTextL, splitSep, splitSepAux, pyStrip_nil]
      rw [hL, ih]
    · have hcd : ¬('\n' = '\n' ∧ a = '\n') := fun h => ha h.2
      have hps : pyStrip ('\n' :: (splitSepAux (a :: v)).1) =
          pyStrip ((splitSepAux (a :: v)).1) := pyStrip_cons_space _ (by decide)
      simp only [chunkTextL, splitSep, splitSepAux_cons_cons_neg v hcd, List.map_cons, hps]

theorem chunkTextL_dropWhile_nl : ∀ u : List Char,
    chunkTextL (u.dropWhile (fun x => x = '\n')) = chunkTextL u := by
  intro u
  induction u with
  | nil => rfl
  | cons a v ih =>
    by_cases ha : a = '\n'
    · subst ha
      rw [List.dropWhile_cons_of_pos (by simp), ih, chunkTextL_cons_nl]
    · rw [List.dropWhile_cons_of_neg (by simp [ha])]

theorem splitSepAux_fst_eq_runs : ∀ l : List Char,
    (splitSepAux l).1 = (splitRunsAux l).1 := by
  intro l
  induction l using splitRunsAux.induct with
  | case1 => simp [splitSepAux, splitRunsAux]
  | case2 c => rw [splitRunsAux]; rfl
  | case3 c d rest hcd ih =>
    obtain ⟨rfl, rfl⟩ := hcd
    rw [splitRunsAux]
    simp [splitSepAux]
  | case4 c d rest hcd ih =>
    rw [splitSepAux_cons_cons_neg rest hcd, splitRunsAux_cons_cons_neg rest hcd]
    simpa using ih

theorem chunkTextL_eq_specChunkL : ∀ l : List Char, chunkTextL l = specChunkL l := by
  intro l
  induction l using splitRunsAux.induct with
  | case1 => simp [chunkTextL, specChunkL, splitSep, splitRuns, splitSepAux, splitRunsAux]
  | case2 c =>
    rw [chunkTextL, specChunkL, splitSep, splitRuns, splitRunsAux]
    rfl
  | case3 c d rest hcd ih =>
    obtain ⟨rfl, rfl⟩ := hcd
    have hL : chunkTextL ('\n' :: '\n' :: rest) = chunkTextL rest := by
      rw [chunkTextL_cons_nl, chunkTextL_cons_nl]
    have hR : specChunkL ('\n' :: '\n' :: rest) =
        specChunkL (rest.dropWhile (fun x => x = '\n')) := by
      rw [specChunkL, splitRuns, splitRunsAux]
      simp [specChunkL, splitRuns, pyStrip_nil]
    rw [hL, hR, ← ih, chunkTextL_dropWhile_nl]
  | case4 c d rest hcd ih =>
    have hfst := splitSepAux_fst_eq_runs (d :: rest)
    simp only [chunkTextL, specChunkL, splitSep, splitRuns] at ih ⊢
    rw [splitSepAux_cons_cons_neg rest hcd, splitRunsAux_cons_cons_neg rest hcd]
    simp only [List.map_cons, List.filter_cons] at ih ⊢
    rw [hfst] at ih ⊢
    have hAB : List.filter (fun x => decide (x ≠ []))
          (List.map pyStrip (splitSepAux (d :: rest)).2) =
        List.filter (fun x => decide (x ≠ []))
          (List.map pyStrip (splitRunsAux (d :: rest)).2) := by
      by_cases hy : pyStrip ((splitRunsAux (d :: rest)).1) = []
      · simpa [hy] using ih
      · rw [if_pos (by simpa using hy), if_pos (by simpa using hy)] at ih
        exact (List.cons.injEq _ _ _ _ ▸ ih).2
    rw [hAB]

/-- C6: the chunker splits on blank-line boundaries with any run of two
or more consecutive newlines acting as one paragraph separator — for
every input it agrees with the maximal-newline-run reference splitter —
and on `"Para one.\n\nPara two.\n\n\nPara three."` it returns exactly
`["Para one.", "Para two.", "Para three."]`. -/
theorem chunker_splits_on_blank_lines :
    (∀ t : List Char, chunkTextL t = specChunkL t) ∧
    chunk_text "Para one.\n\nPara two.\n\n\nPara three." =
      ["Para one.", "Para two.", "Para three."] :=
  ⟨chunkTextL_eq_specChunkL, by rfl⟩

theorem embedLoop_ne_retNone {ε α : Type} (remote : Nat → Except ε (List α)) (d : ℚ)
    (mr : Nat) : ∀ n i, 1 ≤ n → (embedLoop remote d mr n i).1 ≠ .retNone := by
  intro n
  induction n with
  | zero => omega
  | succ n ih =>
    intro i _
    simp only [embedLoop]
    cases remote i with
    | ok v => simp
    | error e =>
      by_cases hn : n = 0
      · simp [hn]
      · have h1 : 1 ≤ n := Nat.one_le_iff_ne_zero.mpr hn
        simpa [hn] using ih (i + 1) h1

/-- C10: for every non-blank text, calling `get_embedding` with
`max_retries = 0` makes the loop body never execute — no remote call, no
sleep, no raised error, and the function returns `None`; for
`max_retries ≥ 1` the outcome is never the `None` fall-through, so the
"vector or `EmbeddingFailure`" contract holds exactly under that
precondition. -/
theorem getEmbedding_zero_retries_returns_none {ε α : Type} (text : List Char) (d : ℚ)
    (remote : Nat → Except ε (List α)) (h1 : text ≠ []) (h2 : pyStrip text ≠ []) :
    getEmbedding text 0 d remote = (.retNone, ⟨0, []⟩) ∧
      ∀ mr, 1 ≤ mr → (getEmbedding text mr d remote).1 ≠ .retNone := by
  constructor
  · simp [getEmbedding, h1, h2, embedLoop]
  · intro mr hmr
    simp only [getEmbedding, h1, h2, or_self, if_neg, false_or]
    exact embedLoop_ne_retNone remote d mr mr 1 hmr

theorem getEmbedding_zero_retries_returns_none_witness :
    getEmbedding ['h', 'i'] 0 1 (fun _ => (.error 0 : Except Nat (List Nat))) =
      (.retNone, ⟨0, []⟩) ∧
    (getEmbedding ['h', 'i'] 3 1 (fun _ => (.error 0 : Except Nat (List Nat)))).1 ≠
      .retNone :=
  ⟨(getEmbedding_zero_retries_returns_none ['h', 'i'] 1 _ (by decide) (by decide)).1,
   (getEmbedding_zero_retries_returns_none ['h', 'i'] 1 _ (by decide) (by decide)).2 3
     (by decide)⟩

/-- C8: for every text that is empty or whitespace-only after trimming,
`get_embedding` returns the empty vector, performs zero remote calls and
zero sleeps, and raises nothing — for any retry configuration. -/
theorem getEmbedding_blank_short_circuits {ε α : Type} (text : List Char) (mr : Nat)
    (d : ℚ) (remote : Nat → Except ε (List α)) (h : pyStrip text = []) :
    getEmbedding text mr d remote = (.vec [], ⟨0, []⟩) := by
  simp [getEmbedding, h]

theorem getEmbedding_blank_short_circuits_witness :
    getEmbedding [' ', '\n', '\t'] 3 1 (fun _ => (.error 0 : Except Nat (List Nat))) =
      (.vec [], ⟨0, []⟩) :=
  getEmbedding_blank_short_circuits [' ', '\n', '\t'] 3 1 _ (by decide)

/-- C4: for non-blank text with the configured `max_retries = 3` and
`base_delay_s = 1`, `get_embedding` returns the first successful remote
result with no further attempts (sleeping 1 before attempt 2 and 2
before attempt 3 when those run), and when all 3 attempts fail it raises
the terminal failure naming the configured count 3 and chaining the last
underlying error, after exactly 3 remote calls — never a 4th. -/
theorem getEmbedding_retry_policy {ε α : Type} (text : List Char)
    (remote : Nat → Except ε (List α)) (h1 : text ≠ []) (h2 : pyStrip text ≠ []) :
    (∀ v, remote 1 = .ok v → getEmbedding text 3 1 remote = (.vec v, ⟨1, []⟩)) ∧
    (∀ e1 v, remote 1 = .error e1 → remote 2 = .ok v →
      getEmbedding text 3 1 remote = (.vec v, ⟨2, [1]⟩)) ∧
    (∀ e1 e2 v, remote 1 = .error e1 → remote 2 = .error e2 → remote 3 = .ok v →
      getEmbedding text 3 1 remote = (.vec v, ⟨3, [1, 2]⟩)) ∧
    (∀ e1 e2 e3, remote 1 = .error e1 → remote 2 = .error e2 → remote 3 = .error e3 →
      getEmbedding text 3 1 remote = (.failure 3 e3, ⟨3, [1, 2]⟩)) := by
  have hcond : ¬(text = [] ∨ pyStrip text = []) := by simp [h1, h2]
  refine ⟨?_, ?_, ?_, ?_⟩
  · intro v hv
    simp [getEmbedding, hcond, embedLoop, hv]
  · intro e1 v he1 hv
    simp [getEmbedding, hcond, embedLoop, he1, hv]
  · intro e1 e2 v he1 he2 hv
    simp [getEmbedding, hcond, embedLoop, he1, he2, hv]
  · intro e1 e2 e3 he1 he2 he3
    simp [getEmbedding, hcond, embedLoop, he1, he2, he3]

theorem getEmbedding_retry_policy_witness :
    getEmbedding ['h', 'i'] 3 1
        (fun i => if i = 3 then .ok [9] else (.error i : Except Nat (List Nat))) =
      (.vec [9], ⟨3, [1, 2]⟩) ∧
    getEmbedding ['h', 'i'] 3 1 (fun i => (.error i : Except Nat (List Nat))) =
      (.failure 3 3, ⟨3, [1, 2]⟩) :=
  ⟨(getEmbedding_retry_policy ['h', 'i'] _ (by decide) (by decide)).2.2.1 1 2 [9]
      rfl rfl rfl,
   (getEmbedding_retry_policy ['h', 'i'] _ (by decide) (by decide)).2.2.2 1 2 3
      rfl rfl rfl⟩

/-- C9: for every existing file whose lowercased extension is neither
`.pdf` nor `.docx`, `extract_text` takes neither parsing branch and
raises the unsupported-format error carrying that extension in its
message; e.g. a `.txt` file fails naming `.txt`, whatever the case of
its name on disk. -/
theorem extract_unsupported_extension (path : List Char)
    (h1 : extLower path ≠ ".pdf".toList) (h2 : extLower path ≠ ".docx".toList) :
    extractDispatch path true = .unsupported (extLower path) ∧
      extractDispatch path true ≠ .pdfBranch ∧
      extractDispatch path true ≠ .docxBranch := by
  have e1 : ".pdf".toList = ['.', 'p', 'd', 'f'] := rfl
  have e2 : ".docx".toList = ['.', 'd', 'o', 'c', 'x'] := rfl
  rw [e1] at h1
  rw [e2] at h2
  refine ⟨?_, ?_, ?_⟩ <;> simp [extractDispatch, h1, h2]

theorem chunkLoop_rows_eq {ε : Type} (file : List Char) (eO : Nat → Except ε (List ℚ))
    (iO : Nat → Bool) : ∀ (cs : List (List Char)) (idx : Nat),
    (chunkLoop file eO iO cs idx).rows =
      (List.enumFrom idx cs).filterMap (fun p => rowAt file eO iO p.1 p.2) := by
  intro cs
  induction cs with
  | nil => intro idx; simp [chunkLoop]
  | cons c cs ih =>
    intro idx
    simp only [chunkLoop, List.enumFrom_cons, List.filterMap_cons]
    cases h : eO idx with
    | error e => simp [rowAt, h, ih (idx + 1)]
    | ok v =>
      by_cases hi : iO idx
      · simp [rowAt, h, hi, ih (idx + 1)]
      · simp [rowAt, h, hi, ih (idx + 1)]

theorem chunkLoop_inserted_rows {ε : Type} (file : List Char)
    (eO : Nat → Except ε (List ℚ)) (iO : Nat → Bool) : ∀ (cs : List (List Char)) (idx : Nat),
    (chunkLoop file eO iO cs idx).inserted = (chunkLoop file eO iO cs idx).rows.length := by
  intro cs
  induction cs with
  | nil => intro idx; simp [chunkLoop]
  | cons c cs ih =>
    intro idx
    simp only [chunkLoop]
    cases h : eO idx with
    | error e => simpa [h] using ih (idx + 1)
    | ok v =>
      by_cases hi : iO idx
      · simpa [h, hi] using ih (idx + 1)
      · simpa [h, hi] using ih (idx + 1)

theorem chunkLoop_inserted_eq {ε : Type} (file : List Char)
    (eO : Nat → Except ε (List ℚ)) (iO : Nat → Bool) : ∀ (cs : List (List Char)) (idx : Nat),
    (chunkLoop file eO iO cs idx).inserted =
      ((List.range' idx cs.length).filter (fun k => chunkOk eO iO k)).length := by
  intro cs
  induction cs with
  | nil => intro idx; simp [chunkLoop]
  | cons c cs ih =>
    intro idx
    simp only [chunkLoop, List.length_cons, List.range'_succ, List.filter_cons]
    cases h : eO idx with
    | error e => simpa [h, chunkOk] using ih (idx + 1)
    | ok v =>
      by_cases hi : iO idx
      · simpa [h, hi, chunkOk] using ih (idx + 1)
      · simpa [h, hi, chunkOk] using ih (idx + 1)

theorem chunkLoop_no_commit {ε : Type} (file : List Char) (eO : Nat → Except ε (List ℚ))
    (iO : Nat → Bool) : ∀ (cs : List (List Char)) (idx : Nat),
    Ev.txCommit ∉ (chunkLoop file eO iO cs idx).evs := by
  intro cs
  induction cs with
  | nil => intro idx; simp [chunkLoop]
  | cons c cs ih =>
    intro idx
    simp only [chunkLoop]
    cases h : eO idx with
    | error e => simpa [h] using ih (idx + 1)
    | ok v =>
      by_cases hi : iO idx
      · simpa [h, hi] using ih (idx + 1)
      · simpa [h, hi] using ih (idx + 1)

theorem chunkLoop_embedCall_mem {ε : Type} (file : List Char)
    (eO : Nat → Except ε (List ℚ)) (iO : Nat → Bool) : ∀ (cs : List (List Char)) (idx j : Nat),
    j < cs.length → Ev.embedCall (idx + j) ∈ (chunkLoop file eO iO cs idx).evs := by
  intro cs
  induction cs with
  | nil => intro idx j hj; simp at hj
  | cons c cs ih =>
    intro idx j hj
    cases j with
    | zero =>
      simp only [chunkLoop, Nat.add_zero]
      cases h : eO idx with
      | error e => simp [h]
      | ok v =>
        by_cases hi : iO idx
        · simp [h, hi]
        · simp [h, hi]
    | succ j =>
      have hmem := ih (idx + 1) j (by simpa using Nat.lt_of_succ_lt_succ hj)
      have harith : idx + 1 + j = idx + (j + 1) := by omega
      rw [harith] at hmem
      simp only [chunkLoop]
      cases h : eO idx with
      | error e => simp [h, hmem]
      | ok v =>
        by_cases hi : iO idx
        · simp [h, hi, hmem]
        · simp [h, hi, hmem]

theorem chunkLoop_warn_mem {ε : Type} (file : List Char)
    (eO : Nat → Except ε (List ℚ)) (iO : Nat → Bool) : ∀ (cs : List (List Char)) (idx j : Nat),
    j < cs.length → chunkOk eO iO (idx + j) = false →
    Ev.warn (idx + j) file ∈ (chunkLoop file eO iO cs idx).evs := by
  intro cs
  induction cs with
  | nil => intro idx j hj; simp at hj
  | cons c cs ih =>
    intro idx j hj hfail
    cases j with
    | zero =>
      simp only [Nat.add_zero] at hfail ⊢
      simp only [chunkLoop]
      cases h : eO idx with
      | error e => simp [h]
      | ok v =>
        by_cases hi : iO idx
        · simp [h, hi]
        · simp [chunkOk, h, hi] at hfail
    | succ j =>
      have harith : idx + (j + 1) = idx + 1 + j := by omega
      rw [harith] at hfail ⊢
      have hmem := ih (idx + 1) j (by simpa using Nat.lt_of_succ_lt_succ hj) hfail
      simp only [chunkLoop]
      cases h : eO idx with
      | error e => simp [h, hmem]
      | ok v =>
        by_cases hi : iO idx
        · simp [h, hi, hmem]
        · simp [h, hi, hmem]

theorem chunkLoop_success_row_mem {ε : Type} (file : List Char)
    (eO : Nat → Except ε (List ℚ)) (iO : Nat → Bool) :
    ∀ (cs : List (List Char)) (idx j : Nat) (hj : j < cs.length) (v : List ℚ),
    eO (idx + j) = .ok v → iO (idx + j) = false →
    (⟨cs.get ⟨j, hj⟩, v, file, "paragraph_split_newline"⟩ : Row) ∈
      (chunkLoop file eO iO cs idx).rows := by
  intro cs
  induction cs with
  | nil => intro idx j hj; simp at hj
  | cons c cs ih =>
    intro idx j hj v hok hins
    cases j with
    | zero =>
      simp only [Nat.add_zero] at hok hins
      simp [chunkLoop, hok, hins]
    | succ j =>
      have harith : idx + (j + 1) = idx + 1 + j := by omega
      rw [harith] at hok hins
      have hmem := ih (idx + 1) j (by simpa using Nat.lt_of_succ_lt_succ hj) v hok hins
      simp only [List.get_eq_getElem] at hmem
      simp only [chunkLoop, List.get_cons_succ]
      cases h : eO idx with
      | error e => simp [h, hmem]
      | ok w =>
        by_cases hi : iO idx
        · simp [h, hi, hmem]
        · simp [h, hi, hmem]

/-- C3: for a file whose extracted text is empty or whitespace-only,
`process_file` commits exactly one sentinel row — empty `chunk_text`,
empty `embedding`, `split_strategy = "empty_file"` — inside a single
transaction and returns, without any chunking or embedding call. -/
theorem processFile_empty_sentinel {ε : Type} (db0 : List Row) (file rawText : List Char)
    (embedO : Nat → Except ε (List ℚ)) (insertO : Nat → Bool)
    (h : pyStrip rawText = []) :
    processFile db0 file rawText embedO insertO false =
      ⟨db0 ++ [⟨[], [], file, "empty_file"⟩],
       [.txBegin, .insertRow ⟨[], [], file, "empty_file"⟩, .txCommit], false⟩ ∧
    ∀ k, Ev.embedCall k ∉ (processFile db0 file rawText embedO insertO false).evs := by
  have hpf : processFile db0 file rawText embedO insertO false =
      ⟨db0 ++ [⟨[], [], file, "empty_file"⟩],
       [.txBegin, .insertRow ⟨[], [], file, "empty_file"⟩, .txCommit], false⟩ := by
    simp [processFile, h]
  refine ⟨hpf, ?_⟩
  intro k
  rw [hpf]
  simp

theorem processFile_empty_sentinel_witness :
    processFile [] ['f'] [' ', '\n']
        (fun _ => (.ok [1] : Except Unit (List ℚ))) (fun _ => false) false =
      ⟨[⟨[], [], ['f'], "empty_file"⟩],
       [.txBegin, .insertRow ⟨[], [], ['f'], "empty_file"⟩, .txCommit], false⟩ ∧
    Ev.embedCall 0 ∉
      (processFile [] ['f'] [' ', '\n']
          (fun _ => (.ok [1] : Except Unit (List ℚ))) (fun _ => false) false).evs :=
  ⟨(processFile_empty_sentinel [] ['f'] [' ', '\n'] _ _ (by decide)).1,
   (processFile_empty_sentinel [] ['f'] [' ', '\n'] _ _ (by decide)).2 0⟩

/-- C1 (counterexample): processing `"a\n\nb"` — two chunks, both
embeds and both inserts succeeding — executes exactly ONE commit, not
one transaction boundary per chunk: both rows are inserted inside the
single `with self.conn` block and committed together at its end. -/
theorem processFile_not_per_chunk_transactions :
    (chunkTextL "a\n\nb".toList).length = 2 ∧
    (processFile [] ['f'] "a\n\nb".toList (fun _ => (.ok [1] : Except Unit (List ℚ)))
        (fun _ => false) false).evs =
      [.txBegin,
       .embedCall 0, .insertRow ⟨['a'], [1], ['f'], "paragraph_split_newline"⟩,
       .embedCall 1, .insertRow ⟨['b'], [1], ['f'], "paragraph_split_newline"⟩,
       .txCommit, .summary 2 2] ∧
    (processFile [] ['f'] "a\n\nb".toList (fun _ => (.ok [1] : Except Unit (List ℚ)))
        (fun _ => false) false).evs.count .txCommit = 1 := by
  refine ⟨rfl, ?_, rfl⟩
  rfl

/-- C1 (amended): on a non-blank document all chunks are processed
inside one transaction that commits exactly once, after the loop;
because per-chunk failures are caught inside the block, that commit
always happens, the committed table is the prior rows plus exactly the
rows of the fully successful chunks in order, and in particular a
failure on chunk `k` never discards the row of any successful chunk —
earlier or later — since they are all committed together at the end. -/
theorem processFile_single_transaction {ε : Type} (db0 : List Row)
    (file rawText : List Char) (embedO : Nat → Except ε (List ℚ)) (insertO : Nat → Bool)
    (h : pyStrip rawText ≠ []) :
    (processFile db0 file rawText embedO insertO false).evs.count .txCommit = 1 ∧
    (processFile db0 file rawText embedO insertO false).db =
      db0 ++ (List.enumFrom 0 (chunkTextL rawText)).filterMap
        (fun p => rowAt file embedO insertO p.1 p.2) ∧
    ∀ j (hj : j < (chunkTextL rawText).length) (v : List ℚ),
      embedO j = .ok v → insertO j = false →
      (⟨(chunkTextL rawText).get ⟨j, hj⟩, v, file, "paragraph_split_newline"⟩ : Row) ∈
        (processFile db0 file rawText embedO insertO false).db := by
  have hcond : ¬(rawText = [] ∨ pyStrip rawText = []) := by
    rintro (rfl | hp)
    · exact h rfl
    · exact h hp
  refine ⟨?_, ?_, ?_⟩
  · have hnc := chunkLoop_no_commit file embedO insertO (chunkTextL rawText) 0
    simp [processFile, hcond, List.count_append, List.count_cons,
      List.count_eq_zero.mpr hnc]
  · simp [processFile, hcond, chunkLoop_rows_eq]
  · intro j hj v hok hins
    have hmem := chunkLoop_success_row_mem file embedO insertO (chunkTextL rawText) 0 j
      hj v (by simpa using hok) (by simpa using hins)
    simp only [processFile, hcond, if_false, if_neg hcond]
    simp only [List.mem_append]
    exact Or.inr hmem

theorem processFile_single_transaction_witness :
    ((processFile [] ['f'] "a\n\nb".toList
        (fun k => if k = 1 then .error () else (.ok [1] : Except Unit (List ℚ)))
        (fun _ => false) false).evs.count .txCommit = 1) ∧
    (⟨['a'], [1], ['f'], "paragraph_split_newline"⟩ : Row) ∈
      (processFile [] ['f'] "a\n\nb".toList
        (fun k => if k = 1 then .error () else (.ok [1] : Except Unit (List ℚ)))
        (fun _ => false) false).db :=
  ⟨(processFile_single_transaction [] ['f'] "a\n\nb".toList _ _ (by decide)).1,
   (processFile_single_transaction [] ['f'] "a\n\nb".toList _ _ (by decide)).2.2 0
     (by decide) [1] rfl rfl⟩

/-- C2: on a non-blank document, every chunk's embedding is attempted
(no chunk failure aborts the loop or the file — no exception escapes),
a chunk whose embedding call raises is skipped with a warning naming its
index and the file, a chunk whose insert raises likewise, and the table
gains exactly one row per fully successful chunk. -/
theorem processFile_chunk_isolation {ε : Type} (db0 : List Row)
    (file rawText : List Char) (embedO : Nat → Except ε (List ℚ)) (insertO : Nat → Bool)
    (h : pyStrip rawText ≠ []) :
    (processFile db0 file rawText embedO insertO false).raised = false ∧
    (∀ j, j < (chunkTextL rawText).length →
      Ev.embedCall j ∈ (processFile db0 file rawText embedO insertO false).evs) ∧
    (∀ j e, j < (chunkTextL rawText).length → embedO j = .error e →
      Ev.warn j file ∈ (processFile db0 file rawText embedO insertO false).evs) ∧
    (∀ j v, j < (chunkTextL rawText).length → embedO j = .ok v → insertO j = true →
      Ev.warn j file ∈ (processFile db0 file rawText embedO insertO false).evs) ∧
    (processFile db0 file rawText embedO insertO false).db.length =
      db0.length + ((List.range (chunkTextL rawText).length).filter
        (fun k => chunkOk embedO insertO k)).length := by
  have hcond : ¬(rawText = [] ∨ pyStrip rawText = []) := by
    rintro (rfl | hp)
    · exact h rfl
    · exact h hp
  refine ⟨?_, ?_, ?_, ?_, ?_⟩
  · simp [processFile, hcond]
  · intro j hj
    have := chunkLoop_embedCall_mem file embedO insertO (chunkTextL rawText) 0 j hj
    simp only [Nat.zero_add] at this
    simp [processFile, hcond, this]
  · intro j e hj he
    have hfail : chunkOk embedO insertO j = false := by simp [chunkOk, he]
    have := chunkLoop_warn_mem file embedO insertO (chunkTextL rawText) 0 j hj
      (by simpa using hfail)
    simp only [Nat.zero_add] at this
    simp [processFile, hcond, this]
  · intro j v hj hv hins
    have hfail : chunkOk embedO insertO j = false := by simp [chunkOk, hv, hins]
    have := chunkLoop_warn_mem file embedO insertO (chunkTextL rawText) 0 j hj
      (by simpa using hfail)
    simp only [Nat.zero_add] at this
    simp [processFile, hcond, this]
  · have hlen := chunkLoop_inserted_rows file embedO insertO (chunkTextL rawText) 0
    have hins := chunkLoop_inserted_eq file embedO insertO (chunkTextL rawText) 0
    rw [hlen] at hins
    simp [processFile, hcond, ← hins, List.range_eq_range']

theorem processFile_chunk_isolation_witness :
    ((processFile [] ['f'] "a\n\nb\n\nc".toList
        (fun k => if k = 1 then .error () else (.ok [1] : Except Unit (List ℚ)))
        (fun _ => false) false).raised = false) ∧
    Ev.embedCall 2 ∈
      (processFile [] ['f'] "a\n\nb\n\nc".toList
        (fun k => if k = 1 then .error () else (.ok [1] : Except Unit (List ℚ)))
        (fun _ => false) false).evs ∧
    Ev.warn 1 ['f'] ∈
      (processFile [] ['f'] "a\n\nb\n\nc".toList
        (fun k => if k = 1 then .error () else (.ok [1] : Except Unit (List ℚ)))
        (fun _ => false) false).evs :=
  ⟨(processFile_chunk_isolation [] ['f'] "a\n\nb\n\nc".toList _ _ (by decide)).1,
   (processFile_chunk_isolation [] ['f'] "a\n\nb\n\nc".toList _ _ (by decide)).2.1 2
     (by decide),
   (processFile_chunk_isolation [] ['f'] "a\n\nb\n\nc".toList _ _ (by decide)).2.2.1 1
     () (by decide) rfl⟩

theorem extract_unsupported_extension_witness :
    extractDispatch "doc.txt".toList true = .unsupported ".txt".toList ∧
    extractDispatch "DOC.TXT".toList true = .unsupported ".txt".toList :=
  ⟨((extract_unsupported_extension "doc.txt".toList (by decide) (by decide)).1).trans
      (by decide),
   ((extract_unsupported_extension "DOC.TXT".toList (by decide) (by decide)).1).trans
      (by decide)⟩

end IndexDocs
